import Mathlib

/-!
Verification of the SteelBridgeLabs/jsonpath path compiler and evaluation
engine (Go sources: path.go, filter.go, slicer.go, jsonpath.go, and the
iterator machinery).

Shallow embedding conventions:
* JSON-like documents are the inductive `Value`.  Maps are association lists
  of entries; this models both the native `map[string]any` (whose own
  iteration order `loopMap` yields) and an ordered capability `Map`, which
  the Go engine treats identically apart from which iterator supplies the
  children.  Arrays model both native `[]any` and the capability `Array`.
* Go iterators (`Iterator func() (any, bool)`) are pure single-pass streams;
  an iterator is modelled by the list of values it will produce.
  `FromValues` is the list itself, `FromIterators` is concatenation
  (`List.join`), and `compose` — which in Go eagerly drains its upstream
  iterator and invokes the next node on every element before returning —
  is `join` of the mapped evaluations.
* Machine integers are `Int` (Go `int`); lengths are converted with
  `Int.ofNat` where the Go code calls `len`.
-/

/-- JSON-like document values: scalars, sequences and map-like containers.
An `obj` entry list carries the container's own iteration order. -/
inductive Value where
  | null : Value
  | boolean : Bool → Value
  | num : Int → Value
  | str : String → Value
  | arr : List Value → Value
  | obj : List (String × Value) → Value
deriving Repr

-- Size of a value, counting every node; used as the termination measure of
-- the explicit-stack recursive-descent traversal.
mutual

def sizeV : Value → Nat
  | .null => 1
  | .boolean _ => 1
  | .num _ => 1
  | .str _ => 1
  | .arr l => 1 + sizeL l
  | .obj kvs => 1 + sizeO kvs

def sizeL : List Value → Nat
  | [] => 0
  | v :: t => sizeV v + sizeL t

def sizeO : List (String × Value) → Nat
  | [] => 0
  | (_, v) :: t => sizeV v + sizeO t

end

/-- Children pushed by `Iterator.RecurseValues` when it emits `v`, with the
head of the list being the TOP of the Go stack (the next value popped):
* a sequence is pushed backwards (`for i := len(v)-1; i >= 0; i--` for
  `[]any`, `v.Values(true)` for a capability `Array`), so after pushing, the
  top of the stack is element 0 — head of this list;
* a map-like value is pushed in the order its own iteration yields
  (`loopMap` / `Map.Values()`), so the LAST child of the map ends up on top
  — hence the `reverse` in the head-is-top representation. -/
def pushChildren : Value → List Value
  | .arr l => l
  | .obj kvs => (kvs.map Prod.snd).reverse
  | _ => []

theorem sizeL_append (a b : List Value) : sizeL (a ++ b) = sizeL a + sizeL b := by
  induction a with
  | nil => simp [sizeL]
  | cons v t ih => simp [sizeL, ih]; omega

theorem sizeL_reverse (a : List Value) : sizeL a.reverse = sizeL a := by
  induction a with
  | nil => rfl
  | cons v t ih =>
      simp [List.reverse_cons, sizeL_append, sizeL, ih]; omega

theorem sizeL_map_snd (kvs : List (String × Value)) :
    sizeL (kvs.map Prod.snd) = sizeO kvs := by
  induction kvs with
  | nil => rfl
  | cons kv t ih => cases kv; simp [sizeL, sizeO, ih]

theorem sizeL_pushChildren_lt (v : Value) : sizeL (pushChildren v) < sizeV v := by
  cases v with
  | arr l => simp [pushChildren, sizeV]
  | obj kvs => simp [pushChildren, sizeV, sizeL_reverse, sizeL_map_snd]
  | null => simp [pushChildren, sizeV, sizeL]
  | boolean b => simp [pushChildren, sizeV, sizeL]
  | num n => simp [pushChildren, sizeV, sizeL]
  | str s => simp [pushChildren, sizeV, sizeL]

/-- Model of `Iterator.RecurseValues`, the explicit-stack depth-first traversal of
filter_test.go (`RecurseValues`): repeatedly pop the pending stack (or, when
it is empty, pull the next upstream value), emit the value, and push its
children.  The single list argument is the pending stack (head = top)
followed by the not-yet-pulled upstream values: the Go code touches the
upstream iterator only when the stack is empty, which in this flattened
representation is exactly processing the list head. -/
def recurseRun : List Value → List Value
  | [] => []
  | v :: rest => v :: recurseRun (pushChildren v ++ rest)
termination_by l => sizeL l
decreasing_by
  simp [sizeL, sizeL_append]
  have := sizeL_pushChildren_lt v
  omega

theorem recurseRun_append (a b : List Value) :
    recurseRun (a ++ b) = recurseRun a ++ recurseRun b := by
  generalize hn : sizeL a = n
  induction n using Nat.strong_induction_on generalizing a b with
  | _ n ih =>
    cases a with
    | nil => simp [recurseRun]
    | cons v rest =>
        rw [List.cons_append, recurseRun, recurseRun, ← List.append_assoc]
        have hlt : sizeL (pushChildren v ++ rest) < n := by
          subst hn
          simp [sizeL, sizeL_append]
          have := sizeL_pushChildren_lt v
          omega
        rw [ih _ hlt _ _ rfl]
        simp

theorem recurseRun_cons (v : Value) (rest : List Value) :
    recurseRun (v :: rest) = recurseRun [v] ++ recurseRun rest := by
  have h : v :: rest = [v] ++ rest := rfl
  rw [h, recurseRun_append]

theorem recurseRun_flatten (l : List Value) :
    recurseRun l = (l.map (fun c => recurseRun [c])).flatten := by
  induction l with
  | nil => simp [recurseRun]
  | cons v rest ih => rw [recurseRun_cons, ih]; simp

/-! ## Slice index algebra (slicer.go) -/

/-- Ascending arm of `indices` in slicer.go: `for i := from; i < to; i += step`,
appending `i` only when `0 <= i && i < length`.  The positivity proof for
`step` is the loop's termination argument. -/
def upLoop (i t step length : Int) (h : 0 < step) : List Int :=
  if _hlt : i < t then
    (if 0 ≤ i ∧ i < length then [i] else []) ++ upLoop (i + step) t step length h
  else []
termination_by (t - i).toNat
decreasing_by omega

/-- Descending arm of `indices`: `for i := from; i > to; i += step` with
`step < 0`, appending `i` only when `0 <= i && i < length`. -/
def downLoop (i t step length : Int) (h : step < 0) : List Int :=
  if _hgt : i > t then
    (if 0 ≤ i ∧ i < length then [i] else []) ++ downLoop (i + step) t step length h
  else []
termination_by (i - t).toNat
decreasing_by omega

/-- Function `indices(from, to, step, length)` of slicer.go: defensive clipping of the
requested bounds (`avoid CPU attack`) followed by the stepping loop; a zero
step produces no indices (the zero-step error is raised earlier, in `slice`). -/
def indices (f t step length : Int) : List Int :=
  if h : 0 < step then
    upLoop (if f < 0 then 0 else f) (if t > length then length else t) step length h
  else if h2 : step < 0 then
    downLoop (if f > length then length else f) (if t < -1 then -1 else t) step length h2
  else []

/-- One member of an array subscript after the textual split that `slice`
performs (split on `,` for unions, then on `:` for ranges, `strconv.Atoi` on
each part).  The lexer validates the subscript text at compile time
(spec section 7: non-integer subscript and too many colons are compile-time
errors), so a compiled path carries members of this shape. -/
inductive SubEntry where
  | single : Int → SubEntry
  | range : Option Int → Option Int → Option Int → SubEntry
deriving Repr, DecidableEq

/-- A whole subscript: the wildcard `*`, or the comma-separated union of
members (a plain index or range is a one-member union). -/
inductive Subscript where
  | wildcard : Subscript
  | union : List SubEntry → Subscript
deriving Repr, DecidableEq

/-- Per-member behavior of `slice` in slicer.go.
* single integer: negative values are offset by `length`, then
  `indices(from, from+1, 1, length)`;
* range: a present zero step is the hard error
  `array index step value must be non-zero`; missing components default from
  the step sign, negative present components are offset by `length`. -/
def sliceEntry (e : SubEntry) (length : Int) : Except String (List Int) :=
  match e with
  | .single i =>
      let f := if i < 0 then i + length else i
      .ok (indices f (f + 1) 1 length)
  | .range f? t? s? =>
      let step := s?.getD 1
      if step = 0 then .error "array index step value must be non-zero"
      else
        let f := match f? with
          | some x => if x < 0 then x + length else x
          | none => if 0 < step then 0 else length - 1
        let t := match t? with
          | some x => if x < 0 then x + length else x
          | none => if 0 < step then length else -1
        .ok (indices f t step length)

/-- The union loop of `slice`: members resolved independently, concatenated
left to right, the first failing member aborting with its error.  (A `*`
inside a union is rejected by `slice` before resolving the member, so a
compiled subscript's union members are never wildcards.) -/
def sliceUnion (es : List SubEntry) (length : Int) : Except String (List Int) :=
  match es with
  | [] => .ok []
  | e :: rest =>
      match sliceEntry e length with
      | .error msg => .error msg
      | .ok is =>
          match sliceUnion rest length with
          | .error msg => .error msg
          | .ok tails => .ok (is ++ tails)

/-- Function `slice(index, length)` of slicer.go on the parsed subscript (named
`sliceSub` here because `slice` is taken by the ambient library): the wildcard
is the full ascending range `indices(0, length, 1, length)`; otherwise the
union members are resolved and concatenated. -/
def sliceSub (sub : Subscript) (length : Int) : Except String (List Int) :=
  match sub with
  | .wildcard => .ok (indices 0 length 1 length)
  | .union es => sliceUnion es length

theorem mem_upLoop_bounds (i t step length x : Int) (h : 0 < step)
    (hx : x ∈ upLoop i t step length h) : 0 ≤ x ∧ x < length := by
  generalize hn : (t - i).toNat = n
  induction n using Nat.strong_induction_on generalizing i with
  | _ n ih =>
    rw [upLoop] at hx
    split at hx
    · rcases List.mem_append.mp hx with hl | hr
      · split at hl
        · simp at hl
          omega
        · simp at hl
      · exact ih ((t - (i + step)).toNat) (by omega) _ hr rfl
    · simp at hx

theorem mem_downLoop_bounds (i t step length x : Int) (h : step < 0)
    (hx : x ∈ downLoop i t step length h) : 0 ≤ x ∧ x < length := by
  generalize hn : (i - t).toNat = n
  induction n using Nat.strong_induction_on generalizing i with
  | _ n ih =>
    rw [downLoop] at hx
    split at hx
    · rcases List.mem_append.mp hx with hl | hr
      · split at hl
        · simp at hl
          omega
        · simp at hl
      · exact ih ((i + step - t).toNat) (by omega) _ hr rfl
    · simp at hx

theorem mem_indices_bounds (f t step length x : Int)
    (hx : x ∈ indices f t step length) : 0 ≤ x ∧ x < length := by
  unfold indices at hx
  split at hx
  · exact mem_upLoop_bounds _ _ _ _ _ _ hx
  · split at hx
    · exact mem_downLoop_bounds _ _ _ _ _ _ hx
    · simp at hx

theorem upLoop_stop (i t step length : Int) (h : 0 < step) (hge : ¬ i < t) :
    upLoop i t step length h = [] := by
  rw [upLoop]; simp [hge]

theorem upLoop_step (i t step length : Int) (h : 0 < step) (hlt : i < t) :
    upLoop i t step length h =
      (if 0 ≤ i ∧ i < length then [i] else []) ++ upLoop (i + step) t step length h := by
  rw [upLoop]; simp [hlt]

/-- Evaluation of `indices(from, from+1, 1, length)` — the shape `slice` uses for a single
integer subscript — produces the index when it is in range and nothing
otherwise. -/
theorem indices_single (f length : Int) :
    indices f (f + 1) 1 length = if 0 ≤ f ∧ f < length then [f] else [] := by
  unfold indices
  rw [dif_pos (by norm_num : (0:Int) < 1)]
  by_cases h0 : f < 0
  · rw [if_pos h0]
    by_cases h1 : f + 1 > length
    · rw [if_pos h1]
      by_cases h2 : (0:Int) < length
      · rw [upLoop_step _ _ _ _ _ h2, upLoop_stop _ _ _ _ _ (by omega)]
        simp
        omega
      · rw [upLoop_stop _ _ _ _ _ (by omega)]
        simp
        omega
    · rw [if_neg h1, upLoop_stop _ _ _ _ _ (by omega)]
      simp
      omega
  · rw [if_neg h0]
    by_cases h1 : f + 1 > length
    · rw [if_pos h1]
      by_cases h2 : f < length
      · rw [upLoop_step _ _ _ _ _ h2, upLoop_stop _ _ _ _ _ (by omega)]
        simp
      · rw [upLoop_stop _ _ _ _ _ (by omega)]
        simp
        omega
    · rw [if_neg h1, upLoop_step _ _ _ _ _ (by omega), upLoop_stop _ _ _ _ _ (by omega)]
      simp

/-! ## Filter predicate engine (filter.go) -/

/-- Type tags `valueType` of filter.go. -/
inductive valueType where
  | unknownValueType | stringValueType | intValueType | floatValueType
  | booleanValueType | nullValueType | regularExpressionValueType
deriving Repr, DecidableEq

/-- Record `typedValue` of filter.go: a tagged, normalized textual representation,
used only inside the filter engine for comparisons. -/
structure typedValue where
  typ : valueType
  val : String
deriving Repr, DecidableEq

/-- Inner loop of `nodeToFilter` (filter.go): `for _, r := range rhs` with the
running `match` accumulator; `none` models the early `return false` taken at
the first rejected pairing. -/
def nodeToFilterInner (accept : typedValue → typedValue → Bool) (l : typedValue) :
    List typedValue → Bool → Option Bool
  | [], m => some m
  | r :: rs, m => if accept l r then nodeToFilterInner accept l rs true else none

/-- Outer loop of `nodeToFilter`: `for _, l := range lhs`, threading the
`match` flag, returning `false` as soon as the inner loop rejects a pairing. -/
def nodeToFilterOuter (accept : typedValue → typedValue → Bool)
    (rhs : List typedValue) : List typedValue → Bool → Bool
  | [], m => m
  | l :: ls, m =>
      match nodeToFilterInner accept l rhs m with
      | none => false
      | some m' => nodeToFilterOuter accept rhs ls m'

/-- Function `nodeToFilter` of filter.go, applied to the two scanned operand sets:
`lhs` and `rhs` are the slices produced by the left and right filter scanners
for one evaluation (`lhsPath(value, root)` / `rhsPath(value, root)`), and
`accept` is the pairing predicate handed in by `comparisonFilter` (or
`matchRegularExpression`), which already folds in type compatibility.
The Go closure starts with `match := false` and performs the set-wise
comparison of every pairing. -/
def nodeToFilter (accept : typedValue → typedValue → Bool)
    (lhs rhs : List typedValue) : Bool :=
  nodeToFilterOuter accept rhs lhs false

theorem nodeToFilterInner_eq (accept : typedValue → typedValue → Bool)
    (l : typedValue) (rs : List typedValue) (m : Bool) :
    nodeToFilterInner accept l rs m =
      if rs.all (fun r => accept l r) then some (if rs.isEmpty then m else true)
      else none := by
  induction rs generalizing m with
  | nil => simp [nodeToFilterInner]
  | cons r rs ih =>
      simp only [nodeToFilterInner, List.all_cons]
      by_cases h : accept l r
      · rw [if_pos h, ih]
        simp [h]
      · simp [h]

theorem nodeToFilterOuter_nil_rhs (accept : typedValue → typedValue → Bool)
    (ls : List typedValue) (m : Bool) :
    nodeToFilterOuter accept [] ls m = m := by
  induction ls generalizing m with
  | nil => rfl
  | cons l ls ih =>
      simp [nodeToFilterOuter, nodeToFilterInner, ih]

theorem nodeToFilterOuter_eq (accept : typedValue → typedValue → Bool)
    (rhs : List typedValue) (hrhs : rhs ≠ []) (ls : List typedValue) (m : Bool) :
    nodeToFilterOuter accept rhs ls m =
      if ls.all (fun l => rhs.all (fun r => accept l r)) then (m || !ls.isEmpty)
      else false := by
  induction ls generalizing m with
  | nil => simp [nodeToFilterOuter]
  | cons l ls ih =>
      have hne : rhs.isEmpty = false := by
        cases rhs
        · exact absurd rfl hrhs
        · rfl
      simp only [nodeToFilterOuter, nodeToFilterInner_eq, hne]
      by_cases h : rhs.all (fun r => accept l r)
      · simp only [h, if_true, Bool.false_eq_true, if_false, ih]
        simp
        intro _
        exact fun r hr => List.all_eq_true.mp h r hr
      · simp [h]

/-- C1: a comparison filter (the `nodeToFilter` closure of filter.go, used by
`comparisonFilter` for `==`, `!=`, `>`, `>=`, `<`, `<=` and by
`matchRegularExpression`, with `accept` the per-pairing scalar comparison
those callers pass in) evaluates to true iff the left and right operand sets
are both non-empty and every pairing across the full cross product satisfies
`accept`; an empty side always forces false. -/
theorem comparisonFilter_cross_product (accept : typedValue → typedValue → Bool)
    (lhs rhs : List typedValue) :
    nodeToFilter accept lhs rhs = true ↔
      (lhs ≠ [] ∧ rhs ≠ [] ∧ ∀ l ∈ lhs, ∀ r ∈ rhs, accept l r = true) := by
  cases rhs with
  | nil => simp [nodeToFilter, nodeToFilterOuter_nil_rhs]
  | cons r0 rs0 =>
      rw [nodeToFilter, nodeToFilterOuter_eq accept (r0 :: rs0) (by simp) lhs false]
      by_cases h : lhs.all (fun l => (r0 :: rs0).all (fun r => accept l r))
      · rw [if_pos h]
        cases lhs with
        | nil => simp at h ⊢
        | cons l0 ls0 =>
            simp only [List.isEmpty_cons, Bool.not_false, Bool.or_true, true_iff]
            refine ⟨by simp, by simp, ?_⟩
            intro l hl r hr
            exact List.all_eq_true.mp (List.all_eq_true.mp h l hl) r hr
      · rw [if_neg h]
        simp only [Bool.false_eq_true, false_iff]
        intro ⟨h1, h2, h3⟩
        exact h (List.all_eq_true.mpr fun l hl =>
          List.all_eq_true.mpr fun r hr => h3 l hl r hr)

/-! ## Compiled path nodes and the evaluation dispatcher (path.go) -/

/-- Operation tag threaded through every node (path.go). -/
inductive operation where
  | getOperation | setOperation | deleteOperation
deriving Repr, DecidableEq

/-- Compile context (path.go `pathContext`); evaluation closures read only
`returnNullForMissingLeaf`, the other two fields are consumed by the `Get`
wrapper and the definiteness analysis. -/
structure pathContext where
  definite : Bool := false
  returnNullForMissingLeaf : Bool := false
  returnList : Bool := false
deriving Repr, DecidableEq

/-- A deferred set capsule (`setExpression`): the closure captures its owning
container and the key or index it will write to. -/
inductive SetCap where
  | mapKey : List (String × Value) → String → SetCap
  | arrIdx : List Value → Int → SetCap
deriving Repr

/-- A deferred delete capsule (`deleteExpression`): for a map-like owner the
closure captures the owner and key; for a sequence owner the Go closure
captures nothing at all — it is the constant function returning the fixed
operational error (path.go lines 700-703, 978-981 and the capability-array
variants, whose message says `arrays` instead of `slices`). -/
inductive DelCap where
  | mapKey : List (String × Value) → String → DelCap
  | arrUnsupported : String → DelCap
deriving Repr

/-- One element of the evaluation iterator: a plain value, or a mutation
capsule smuggled through the value channel at a terminal node. -/
inductive EvalResult where
  | value : Value → EvalResult
  | setCap : SetCap → EvalResult
  | delCap : DelCap → EvalResult
deriving Repr

/-- Compiled path node.  Each constructor corresponds to the node
`createPath` builds for one lexeme (path.go): the parser sends the dot-child
`*` to `allChildren` (`childThen` delegates to `allChildrenThen`), carries
bracket names after `bracketChildNames`/`unescape` processing, and array
subscripts in the validated parsed form.  Filter nodes carry the compiled
predicate produced by `newFilter` as an opaque boolean function of the
candidate and the root. -/
inductive PathNode where
  | identity : PathNode
  | rootNode : PathNode → PathNode
  | recursiveAll : PathNode → PathNode
  | recursiveBare : PathNode → PathNode
  | recursiveChild : String → PathNode → PathNode
  | childNode : String → Bool → PathNode → PathNode
  | allChildren : PathNode → PathNode
  | bracketChild : List String → PathNode → PathNode
  | subscriptNode : Subscript → PathNode → PathNode
  | filterNode : (Value → Value → Bool) → PathNode → PathNode
  | recursiveFilterNode : (Value → Value → Bool) → PathNode → PathNode
  | propertyNameNode : String → PathNode → PathNode
  | propertyNameBracket : List String → PathNode → PathNode
  | propertyNameSubscript : Subscript → PathNode → PathNode

/-- Terminal flag of a compiled `Path` (path.go): only the pass-through node
built for `lexemeIdentity` / `lexemeEOF` is created with `terminal(...)`;
every other constructor uses `new(...)`, which sets `terminal` to false. -/
def terminalPath : PathNode → Bool
  | .identity => true
  | _ => false

/-- Key lookup in a map-like value (`o[childName]` on a native map,
`o.Values(childName)` / `o.Keys(childName)` on a capability Map). -/
def lookupKey (kvs : List (String × Value)) (name : String) : Option Value :=
  (kvs.find? (fun kv => kv.1 = name)).map Prod.snd

/-- Indices an array subscript resolves to for a sequence of the given
elements: `slice(subscript, len(v))` followed by the defensive
`i >= 0 && i < len(v)` check that every loop in `arraySubscriptThen`
performs before using an index.  The error arm models the `panic(err)` in
`arraySubscriptThen`, which is unreachable for a compiled path because the
lexer validated the subscript text (spec section 7). -/
def subscriptIndices (sub : Subscript) (l : List Value) : List Int :=
  match sliceSub sub (Int.ofNat l.length) with
  | .ok is => is.filter (fun i => 0 ≤ i ∧ i < Int.ofNat l.length)
  | .error _ => []

/-- Body of `allChildrenThen` (path.go): `term` is `path.terminal` of the
rest of the chain and `k` is `compose` with the rest of the chain (one call
per child value, concatenated).  At a terminal node under set/delete it
produces one capsule per child; otherwise (including get at a terminal node)
it fans out to all children: map-like children in the order the map's own
iteration yields, sequence children in index order. -/
def allChildrenThen (op : operation) (term : Bool) (k : Value → List EvalResult) :
    Value → List EvalResult
  | .obj kvs =>
      if term then
        match op with
        | .setOperation => kvs.map (fun kv => .setCap (.mapKey kvs kv.1))
        | .deleteOperation => kvs.map (fun kv => .delCap (.mapKey kvs kv.1))
        | .getOperation => (kvs.map (fun kv => k kv.2)).flatten
      else (kvs.map (fun kv => k kv.2)).flatten
  | .arr l =>
      if term then
        match op with
        | .setOperation => (List.range l.length).map (fun i => .setCap (.arrIdx l (Int.ofNat i)))
        | .deleteOperation =>
            l.map (fun _ => .delCap (.arrUnsupported "delete is not supported on slices"))
        | .getOperation => (l.map k).flatten
      else (l.map k).flatten
  | _ => []

/-- Body of `childThen` (path.go) for a child name other than `*`.
`recFlag` is the `recursive` argument (true only under recursive descent);
in recursive mode a non-terminal match that is a sequence is evaluated both
as the sequence itself and element-wise (`evaluateArrayItems`).  At a
terminal node under set/delete a single capsule for `(owner, name)` is
produced — even when the key is absent, which is how set creates new keys.
A missing key at a terminal node yields one `null` when
`returnNullForMissingLeaf` is set, otherwise the empty sub-sequence. -/
def childThen (op : operation) (ctx : pathContext) (name : String) (recFlag : Bool)
    (term : Bool) (k : Value → List EvalResult) : Value → List EvalResult
  | .obj kvs =>
      let evaluateArrayItems : Value → List EvalResult := fun mv =>
        match mv with
        | .arr l => k (.arr l) ++ (l.map k).flatten
        | other => k other
      let lookupBranch : List EvalResult :=
        match lookupKey kvs name with
        | some mv => if recFlag && !term then evaluateArrayItems mv else k mv
        | none => if ctx.returnNullForMissingLeaf && term then [.value .null] else []
      if term then
        match op with
        | .setOperation => [.setCap (.mapKey kvs name)]
        | .deleteOperation => [.delCap (.mapKey kvs name)]
        | .getOperation => lookupBranch
      else lookupBranch
  | _ => []

/-- Body of `bracketChildThen` (path.go): at a terminal node under set/delete
one capsule per listed name (present or not); otherwise the values of the
present names, left to right. -/
def bracketChildThen (op : operation) (names : List String) (term : Bool)
    (k : Value → List EvalResult) : Value → List EvalResult
  | .obj kvs =>
      if term then
        match op with
        | .setOperation => names.map (fun n => .setCap (.mapKey kvs n))
        | .deleteOperation => names.map (fun n => .delCap (.mapKey kvs n))
        | .getOperation => ((names.filterMap (fun n => lookupKey kvs n)).map k).flatten
      else ((names.filterMap (fun n => lookupKey kvs n)).map k).flatten
  | _ => []

/-- Body of `arraySubscriptThen` (path.go).  A wildcard subscript also
accepts map-like values (treated like `allChildrenThen`); anything else
falls through to the sequence switch, and a value that is neither yields the
empty sub-sequence.  On a sequence the resolved in-range indices drive the
per-operation loops; the get arm reads `v[i]` directly (safe after the range
check, hence the irrelevant default). -/
def arraySubscriptThen (op : operation) (sub : Subscript) (term : Bool)
    (k : Value → List EvalResult) (value : Value) : List EvalResult :=
  let arrBranch : List Value → List EvalResult := fun l =>
    let is := subscriptIndices sub l
    if term then
      match op with
      | .setOperation => is.map (fun i => .setCap (.arrIdx l i))
      | .deleteOperation =>
          is.map (fun _ => .delCap (.arrUnsupported "delete is not supported on slices"))
      | .getOperation => (is.map (fun i => k (l.getD i.toNat .null))).flatten
    else (is.map (fun i => k (l.getD i.toNat .null))).flatten
  if sub = .wildcard then
    match value with
    | .arr l => arrBranch l
    | .obj kvs =>
        if term then
          match op with
          | .setOperation => kvs.map (fun kv => .setCap (.mapKey kvs kv.1))
          | .deleteOperation => kvs.map (fun kv => .delCap (.mapKey kvs kv.1))
          | .getOperation => (kvs.map (fun kv => k kv.2)).flatten
        else (kvs.map (fun kv => k kv.2)).flatten
    | _ => []
  else
    match value with
    | .arr l => arrBranch l
    | _ => []

/-- Body of `propertyNameChildThen` (path.go): yields the key itself (as a
string value) when present. -/
def propertyNameChildThen (name : String) (k : Value → List EvalResult) :
    Value → List EvalResult
  | .obj kvs => if (lookupKey kvs name).isSome then k (.str name) else []
  | _ => []

/-- Body of `propertyNameBracketChildThen` (path.go): the present names
themselves, left to right. -/
def propertyNameBracketChildThen (names : List String) (k : Value → List EvalResult) :
    Value → List EvalResult
  | .obj kvs =>
      ((names.filter (fun n => (lookupKey kvs n).isSome)).map (fun n => k (.str n))).flatten
  | _ => []

/-- Body of `propertyNameArraySubscriptThen` (path.go): only the wildcard
form on a map-like value yields anything — all keys, in map order. -/
def propertyNameArraySubscriptThen (sub : Subscript) (k : Value → List EvalResult) :
    Value → List EvalResult
  | .obj kvs =>
      if sub = .wildcard then (kvs.map (fun kv => k (.str kv.1))).flatten else []
  | _ => []

/-- The evaluation dispatcher: `path.expression(operation, value, root)`.
Each case applies the corresponding node body from path.go, with `compose`
— which in Go eagerly drains the upstream iterator, invoking the next node
on every element before returning — rendered as `flatten` of the mapped
sub-evaluations, and the continuation `k` standing for composition with the
rest of the chain.  Recursive-descent nodes pre-compose `RecurseValues`
exactly as `createPath` does for `..*`, `..` and `..name`. -/
def eval (op : operation) (ctx : pathContext) :
    PathNode → Value → Value → List EvalResult
  | .identity, value, _root => [.value value]
  | .rootNode rest, value, root => eval op ctx rest value root
  | .recursiveAll rest, value, root =>
      ((recurseRun [value]).map
        (allChildrenThen op (terminalPath rest) (fun w => eval op ctx rest w root))).flatten
  | .recursiveBare rest, value, root =>
      ((recurseRun [value]).map (fun w => eval op ctx rest w root)).flatten
  | .recursiveChild name rest, value, root =>
      ((recurseRun [value]).map
        (childThen op ctx name true (terminalPath rest) (fun w => eval op ctx rest w root))).flatten
  | .childNode name recFlag rest, value, root =>
      childThen op ctx name recFlag (terminalPath rest) (fun w => eval op ctx rest w root) value
  | .allChildren rest, value, root =>
      allChildrenThen op (terminalPath rest) (fun w => eval op ctx rest w root) value
  | .bracketChild names rest, value, root =>
      bracketChildThen op names (terminalPath rest) (fun w => eval op ctx rest w root) value
  | .subscriptNode sub rest, value, root =>
      arraySubscriptThen op sub (terminalPath rest) (fun w => eval op ctx rest w root) value
  | .filterNode f rest, value, root =>
      match value with
      | .arr l => ((l.filter (fun av => f av root)).map (fun w => eval op ctx rest w root)).flatten
      | other => if f other root then eval op ctx rest other root else []
  | .recursiveFilterNode f rest, value, root =>
      if f value root then eval op ctx rest value root else []
  | .propertyNameNode name rest, value, root =>
      propertyNameChildThen name (fun w => eval op ctx rest w root) value
  | .propertyNameBracket names rest, value, root =>
      propertyNameBracketChildThen names (fun w => eval op ctx rest w root) value
  | .propertyNameSubscript sub rest, value, root =>
      propertyNameArraySubscriptThen sub (fun w => eval op ctx rest w root) value

/-! ## Top-level Set / Delete dispatch (jsonpath.go) -/

/-- One write performed by invoking a capsule against its captured owner:
what `setExpression` / `deleteExpression` closures do to the container they
captured.  The Go closures mutate through the captured reference; here an
invocation is recorded as the event it performs. -/
inductive WriteEvent where
  | mapWrite : List (String × Value) → String → Value → WriteEvent
  | arrWrite : List Value → Int → Value → WriteEvent
  | mapRemove : List (String × Value) → String → WriteEvent
deriving Repr

/-- Invoking a set capsule with a value: `owner[key] = v` or
`owner[index] = v`. -/
def invokeSet (c : SetCap) (v : Value) : WriteEvent :=
  match c with
  | .mapKey owner key => .mapWrite owner key v
  | .arrIdx owner i => .arrWrite owner i v

/-- Invoking a delete capsule: a map-like capsule removes its key and
reports no error; a sequence capsule performs no write at all and returns
its fixed operational error (`delete is not supported on slices` /
`... arrays`). -/
def invokeDelete (c : DelCap) : Option WriteEvent × Option String :=
  match c with
  | .mapKey owner key => (some (.mapRemove owner key), none)
  | .arrUnsupported msg => (none, some msg)

/-- The invocation loop of `Set` (jsonpath.go): pull every result of the
already-materialized evaluation, invoke each `setExpression` with the given
value, and silently skip any result that is not a set capsule. -/
def goSetLoop (v : Value) : List EvalResult → List WriteEvent
  | [] => []
  | .setCap c :: rest => invokeSet c v :: goSetLoop v rest
  | _ :: rest => goSetLoop v rest

/-- Function `Set` of jsonpath.go after successful compilation: evaluate the
path with `setOperation` (the whole document walk happens here, before the
loop starts, because `compose` drains every upstream iterator eagerly), then
invoke each set capsule in order, and return `nil` unconditionally.  The
result is the returned error paired with the writes performed. -/
def goSet (ctx : pathContext) (p : PathNode) (data v : Value) :
    Option String × List WriteEvent :=
  (none, goSetLoop v (eval .setOperation ctx p data data))

/-- The invocation loop for delete capsules, mirroring the `Set` loop with
`deleteExpression` results: each capsule is invoked exactly once, in
enumeration order, yielding its optional write and optional error. -/
def goDeleteLoop : List EvalResult → List (Option WriteEvent × Option String)
  | [] => []
  | .delCap c :: rest => invokeDelete c :: goDeleteLoop rest
  | _ :: rest => goDeleteLoop rest

/-- Modelled from the spec: the top-level `Delete` wrapper is not among the
provided sources (only `Get` and `Set` are in jsonpath.go), so it is
modelled from spec sections 4.2/4.5: the caller pulls the full sequence of
capsules produced by evaluating the compiled path with the delete operation
and invokes each exactly once after enumeration completes, in enumeration
order. -/
def goDelete (ctx : pathContext) (p : PathNode) (data : Value) :
    List (Option WriteEvent × Option String) :=
  goDeleteLoop (eval .deleteOperation ctx p data data)

/-- Specification-side enumeration: the set capsules harvested from a full
read-only walk of the original document, in traversal order. -/
def setCapsules (ctx : pathContext) (p : PathNode) (data : Value) : List SetCap :=
  (eval .setOperation ctx p data data).filterMap
    (fun r => match r with | .setCap c => some c | _ => none)

/-- Specification-side enumeration of delete capsules from the original
document, in traversal order. -/
def deleteCapsules (ctx : pathContext) (p : PathNode) (data : Value) : List DelCap :=
  (eval .deleteOperation ctx p data data).filterMap
    (fun r => match r with | .delCap c => some c | _ => none)

/-- Modelled from the spec: validity of a compiled subscript.  The lexer —
an external collaborator not among the provided sources — rejects malformed
subscripts at compile time (spec section 7: non-integer subscript, zero
step, wildcard inside a union are all compile-time errors), so a
successfully compiled path never carries a range with an explicit zero
step. -/
def validEntry : SubEntry → Bool
  | .single _ => true
  | .range _ _ (some s) => s ≠ 0
  | .range _ _ none => true

def validSub : Subscript → Bool
  | .wildcard => true
  | .union es => es.all validEntry

/-- Path whose every subscript passed compile-time validation; on such paths
`slice` cannot fail, so the `panic(err)` branches of `arraySubscriptThen`
are unreachable. -/
def validPath : PathNode → Bool
  | .identity => true
  | .rootNode rest => validPath rest
  | .recursiveAll rest => validPath rest
  | .recursiveBare rest => validPath rest
  | .recursiveChild _ rest => validPath rest
  | .childNode _ _ rest => validPath rest
  | .allChildren rest => validPath rest
  | .bracketChild _ rest => validPath rest
  | .subscriptNode sub rest => validSub sub && validPath rest
  | .filterNode _ rest => validPath rest
  | .recursiveFilterNode _ rest => validPath rest
  | .propertyNameNode _ rest => validPath rest
  | .propertyNameBracket _ rest => validPath rest
  | .propertyNameSubscript sub rest => validSub sub && validPath rest

theorem sliceEntry_ok (e : SubEntry) (length : Int) (hv : validEntry e = true) :
    ∃ is, sliceEntry e length = .ok is := by
  cases e with
  | single i => exact ⟨_, rfl⟩
  | range f? t? s? =>
      cases s? with
      | none => exact ⟨_, rfl⟩
      | some s =>
          simp [validEntry] at hv
          simp [sliceEntry, hv]

theorem sliceSub_ok (sub : Subscript) (length : Int) (hv : validSub sub = true) :
    ∃ is, sliceSub sub length = .ok is := by
  cases sub with
  | wildcard => exact ⟨_, rfl⟩
  | union es =>
      induction es with
      | nil => exact ⟨_, rfl⟩
      | cons e rest ih =>
          simp [validSub, List.all_cons] at hv
          obtain ⟨is1, h1⟩ := sliceEntry_ok e length hv.1
          obtain ⟨is2, h2⟩ := ih (by simp [validSub]; exact hv.2)
          simp [sliceSub, sliceUnion, h1]
          simp [sliceSub] at h2
          simp [h2]

theorem goSetLoop_eq (v : Value) (rs : List EvalResult) :
    goSetLoop v rs = rs.filterMap
      (fun r => match r with | .setCap c => some (invokeSet c v) | _ => none) := by
  induction rs with
  | nil => rfl
  | cons r rest ih => cases r <;> simp [goSetLoop, ih, List.filterMap_cons]

theorem goDeleteLoop_eq (rs : List EvalResult) :
    goDeleteLoop rs = rs.filterMap
      (fun r => match r with | .delCap c => some (invokeDelete c) | _ => none) := by
  induction rs with
  | nil => rfl
  | cons r rest ih => cases r <;> simp [goDeleteLoop, ih, List.filterMap_cons]

/-- C10: whenever compilation of the expression succeeds (`validPath`: the
external lexer has validated every subscript, so the `panic(err)` branch of
`arraySubscriptThen` is unreachable and evaluation is total), the top-level
`Set` returns a nil error for every document and every value — the function
body ends in an unconditional `return nil` — and every enumerated result
that is not a `setExpression` fails the type assertion in the loop and is
silently skipped rather than reported. -/
theorem set_returns_nil_and_skips (ctx : pathContext) (p : PathNode) (data v : Value)
    (hv : validPath p = true) :
    (goSet ctx p data v).1 = none ∧
    (goSet ctx p data v).2 = (eval .setOperation ctx p data data).filterMap
      (fun r => match r with | .setCap c => some (invokeSet c v) | _ => none) :=
  ⟨rfl, goSetLoop_eq v _⟩

/-- Closed witness for C10. -/
theorem set_returns_nil_and_skips_witness :
    validPath (.childNode "a" false .identity) = true ∧
    (goSet {} (.childNode "a" false .identity) (.obj [("a", .num 1)]) (.num 2)).1 = none := by
  refine ⟨rfl, ?_⟩
  exact (set_returns_nil_and_skips {} (.childNode "a" false .identity)
    (.obj [("a", .num 1)]) (.num 2) rfl).1

/-- C2: for every `Set` or `Delete` call on a successfully compiled path,
the mutation capsules are fully enumerated first — `path.expression` walks
the whole document read-only because `compose` eagerly drains every
upstream iterator and capsule construction performs no writes — and only
then are the capsules invoked, in enumeration order.  The invocation traces
of both wrappers equal the pure enumerations `setCapsules`/`deleteCapsules`
of the ORIGINAL document applied in order, so a write performed by an
earlier capsule cannot change which locations later capsules captured.
(The `Delete` wrapper itself is modelled from spec sections 4.2/4.5; its
capsules and their enumeration come from path.go.) -/
theorem set_delete_enumerate_then_invoke (ctx : pathContext) (p : PathNode) (data v : Value)
    (hv : validPath p = true) :
    goSet ctx p data v = (none, (setCapsules ctx p data).map (fun c => invokeSet c v))
    ∧ goDelete ctx p data = (deleteCapsules ctx p data).map invokeDelete := by
  constructor
  · show (none, goSetLoop v (eval .setOperation ctx p data data)) = _
    rw [goSetLoop_eq, setCapsules, List.map_filterMap]
    refine congrArg _ (congrFun (congrArg _ (funext fun r => ?_)) _)
    cases r <;> rfl
  · show goDeleteLoop (eval .deleteOperation ctx p data data) = _
    rw [goDeleteLoop_eq, deleteCapsules, List.map_filterMap]
    refine congrFun (congrArg _ (funext fun r => ?_)) _
    cases r <;> rfl

/-- Closed witness for C2. -/
theorem set_delete_enumerate_then_invoke_witness :
    validPath (.childNode "a" false .identity) = true ∧
    goSet {} (.childNode "a" false .identity) (.obj [("a", .num 1)]) (.num 2)
      = (none, (setCapsules {} (.childNode "a" false .identity) (.obj [("a", .num 1)])).map
          (fun c => invokeSet c (.num 2))) :=
  ⟨rfl, (set_delete_enumerate_then_invoke {} (.childNode "a" false .identity)
    (.obj [("a", .num 1)]) (.num 2) rfl).1⟩

/-- C4: a delete capsule whose owning container is a sequence always returns
an error and never mutates the sequence.  At a terminal node under the
delete operation, every capsule produced for a sequence — one per resolved
subscript index, or one per element for the `*` fan-out — is the constant
error closure `arrUnsupported`, and invoking it performs no write and
returns the fixed operational error (path.go lines 970-987 and 692-708; the
capability-Array branches are identical with `arrays` in the message). -/
theorem delete_on_sequence_rejected (ctx : pathContext) (sub : Subscript)
    (rest : PathNode) (l : List Value) (root : Value)
    (hterm : terminalPath rest = true) :
    eval .deleteOperation ctx (.subscriptNode sub rest) (.arr l) root
      = (subscriptIndices sub l).map
          (fun _ => .delCap (.arrUnsupported "delete is not supported on slices"))
    ∧ eval .deleteOperation ctx (.allChildren rest) (.arr l) root
      = l.map (fun _ => .delCap (.arrUnsupported "delete is not supported on slices"))
    ∧ invokeDelete (.arrUnsupported "delete is not supported on slices")
      = (none, some "delete is not supported on slices") := by
  refine ⟨?_, ?_, rfl⟩
  · simp only [eval, arraySubscriptThen, hterm]
    by_cases hw : sub = .wildcard <;> simp [hw]
  · simp [eval, allChildrenThen, hterm]

/-- Closed witness for C4. -/
theorem delete_on_sequence_rejected_witness :
    terminalPath .identity = true ∧
    eval .deleteOperation {} (.subscriptNode (.union [.single 0]) .identity)
        (.arr [.num 7]) .null
      = (subscriptIndices (.union [.single 0]) [.num 7]).map
          (fun _ => .delCap (.arrUnsupported "delete is not supported on slices")) :=
  ⟨rfl, (delete_on_sequence_rejected {} (.union [.single 0]) .identity [.num 7] .null rfl).1⟩

theorem flatten_map_singleton {α β : Type} (f : α → β) (l : List α) :
    (l.map (fun x => [f x])).flatten = l.map f := by
  induction l with
  | nil => rfl
  | cons x xs ih => simp [ih]

/-- C9: the wildcard array subscript `[*]`, although subscripts are
specified over sequences, also matches map-like values: under get it fans
out to all the map's member values (in map order, composing with the rest
of the chain; with the identity rest this is exactly the member values) and
at a terminal node it produces one set capsule, or one delete capsule, per
key of the map (path.go lines 833-934). -/
theorem wildcard_subscript_on_map (ctx : pathContext) (rest : PathNode)
    (kvs : List (String × Value)) (root : Value)
    (hterm : terminalPath rest = true) :
    eval .getOperation ctx (.subscriptNode .wildcard rest) (.obj kvs) root
      = (kvs.map (fun kv => eval .getOperation ctx rest kv.2 root)).flatten
    ∧ eval .getOperation ctx (.subscriptNode .wildcard .identity) (.obj kvs) root
      = kvs.map (fun kv => .value kv.2)
    ∧ eval .setOperation ctx (.subscriptNode .wildcard rest) (.obj kvs) root
      = kvs.map (fun kv => .setCap (.mapKey kvs kv.1))
    ∧ eval .deleteOperation ctx (.subscriptNode .wildcard rest) (.obj kvs) root
      = kvs.map (fun kv => .delCap (.mapKey kvs kv.1)) := by
  refine ⟨?_, ?_, ?_, ?_⟩
  · simp only [eval, arraySubscriptThen, if_pos rfl]
    cases hrest : terminalPath rest <;> simp
  · simp only [eval, arraySubscriptThen, if_pos rfl, terminalPath]
    exact flatten_map_singleton _ _
  · simp [eval, arraySubscriptThen, hterm]
  · simp [eval, arraySubscriptThen, hterm]

/-- Closed witness for C9. -/
theorem wildcard_subscript_on_map_witness :
    terminalPath .identity = true ∧
    eval .setOperation {} (.subscriptNode .wildcard .identity)
        (.obj [("a", .num 1), ("b", .num 2)]) .null
      = [("a", Value.num 1), ("b", Value.num 2)].map
          (fun kv => .setCap (.mapKey [("a", .num 1), ("b", .num 2)] kv.1)) :=
  ⟨rfl, (wildcard_subscript_on_map {} .identity [("a", .num 1), ("b", .num 2)] .null rfl).2.2.1⟩

def isObjValue : Value → Bool
  | .obj _ => true
  | _ => false

def isArrValue : Value → Bool
  | .arr _ => true
  | _ => false

/-- C7: a compiled node given an input of the wrong kind degrades to the
empty sub-sequence under every operation — never an error, never a panic
(every type switch in path.go falls through to `empty`): every named-child,
bracket-child and property-name lookup on a non-map value (scalar or
sequence), and every array subscript or `*` fan-out on a scalar, yields
`[]`. -/
theorem wrong_kind_input_empty (op : operation) (ctx : pathContext)
    (name : String) (recFlag : Bool) (names : List String) (sub : Subscript)
    (rest : PathNode) (v root : Value) (la : List Value)
    (hobj : isObjValue v = false) (harr : isArrValue v = false) :
    eval op ctx (.childNode name recFlag rest) v root = []
    ∧ eval op ctx (.childNode name recFlag rest) (.arr la) root = []
    ∧ eval op ctx (.bracketChild names rest) v root = []
    ∧ eval op ctx (.bracketChild names rest) (.arr la) root = []
    ∧ eval op ctx (.subscriptNode sub rest) v root = []
    ∧ eval op ctx (.allChildren rest) v root = []
    ∧ eval op ctx (.propertyNameNode name rest) v root = []
    ∧ eval op ctx (.propertyNameBracket names rest) v root = []
    ∧ eval op ctx (.propertyNameSubscript sub rest) v root = [] := by
  refine ⟨?_, ?_, ?_, ?_, ?_, ?_, ?_, ?_, ?_⟩
  · cases v <;> simp_all [eval, childThen, isObjValue]
  · simp [eval, childThen]
  · cases v <;> simp_all [eval, bracketChildThen, isObjValue]
  · simp [eval, bracketChildThen]
  · cases v <;> simp_all [eval, arraySubscriptThen, isObjValue, isArrValue]
  · cases v <;> simp_all [eval, allChildrenThen, isObjValue, isArrValue]
  · cases v <;> simp_all [eval, propertyNameChildThen, isObjValue]
  · cases v <;> simp_all [eval, propertyNameBracketChildThen, isObjValue]
  · cases v <;> simp_all [eval, propertyNameArraySubscriptThen, isObjValue]

/-- Closed witness for C7. -/
theorem wrong_kind_input_empty_witness :
    isObjValue (.num 5) = false ∧ isArrValue (.num 5) = false ∧
    eval .getOperation {} (.childNode "a" false .identity) (.num 5) (.num 5) = [] :=
  ⟨rfl, rfl, (wrong_kind_input_empty .getOperation {} "a" false [] (.union [.single 0])
    .identity (.num 5) (.num 5) [] rfl rfl).1⟩

/-- C6: `RecurseValues` is a depth-first pre-order traversal: every value is
emitted before its children are scheduled (first conjunct: the emitted value
precedes everything produced from its pushed children), and because sequence
elements are pushed in reverse, a sequence's elements — and their entire
subtrees — come out in original index order, with the container itself
first (second conjunct). -/
theorem recurseValues_preorder :
    (∀ (v : Value) (rest : List Value),
        recurseRun (v :: rest) = v :: recurseRun (pushChildren v ++ rest))
    ∧ (∀ l : List Value,
        recurseRun [Value.arr l]
          = Value.arr l :: (l.map (fun c => recurseRun [c])).flatten) := by
  constructor
  · intro v rest
    rw [recurseRun]
  · intro l
    rw [recurseRun]
    simp only [pushChildren, List.append_nil]
    rw [recurseRun_flatten]

/-- Amended C5: during `RecurseValues`, the children of a map-like value are
pushed in the order the map's own iteration yields them (the last entry ends
on top of the stack: `pushChildren` in the head-is-top representation is the
reversed entry list); consequently, for an ordered capability `Map` the
emitted output visits the map's children — and their subtrees — in REVERSE
of the map's own order, the container itself still coming first. -/
theorem recurseValues_map_children_reversed (kvs : List (String × Value)) :
    pushChildren (Value.obj kvs) = (kvs.map Prod.snd).reverse
    ∧ recurseRun [Value.obj kvs]
        = Value.obj kvs
            :: ((kvs.map Prod.snd).reverse.map (fun c => recurseRun [c])).flatten := by
  refine ⟨rfl, ?_⟩
  rw [recurseRun]
  simp only [pushChildren, List.append_nil]
  rw [recurseRun_flatten]

/-- Counterexample to C5 as stated: for the ordered two-entry map
`{x: "vx", y: "vy"}`, `RecurseValues` emits the container followed by
`"vy"` and then `"vx"` — the reverse of the map's own ordering of its
children, not the map's own ordering. -/
theorem recurseValues_map_order_counterexample :
    recurseRun [Value.obj [("x", .str "vx"), ("y", .str "vy")]]
      = [Value.obj [("x", .str "vx"), ("y", .str "vy")], .str "vy", .str "vx"]
    ∧ recurseRun [Value.obj [("x", .str "vx"), ("y", .str "vy")]]
      ≠ [Value.obj [("x", .str "vx"), ("y", .str "vy")], .str "vx", .str "vy"] := by
  have hstr : ∀ s : String, recurseRun [Value.str s] = [Value.str s] := by
    intro s
    rw [recurseRun]
    simp only [pushChildren, List.nil_append]
    rw [recurseRun]
  have hmain : recurseRun [Value.obj [("x", .str "vx"), ("y", .str "vy")]]
      = [Value.obj [("x", .str "vx"), ("y", .str "vy")], .str "vy", .str "vx"] := by
    rw [recurseRun]
    have hpc : pushChildren (Value.obj [("x", Value.str "vx"), ("y", Value.str "vy")])
          ++ ([] : List Value)
        = [Value.str "vy", Value.str "vx"] := by
      simp [pushChildren]
    rw [hpc, recurseRun_cons, hstr, hstr]
    rfl
  refine ⟨hmain, ?_⟩
  rw [hmain]
  simp

theorem mem_sliceEntry_bounds (e : SubEntry) (length : Int) (is : List Int) (x : Int)
    (hok : sliceEntry e length = .ok is) (hx : x ∈ is) : 0 ≤ x ∧ x < length := by
  cases e with
  | single i =>
      simp only [sliceEntry, Except.ok.injEq] at hok
      exact mem_indices_bounds _ _ _ _ _ (hok ▸ hx)
  | range f? t? s? =>
      simp only [sliceEntry] at hok
      split at hok
      · exact absurd hok (by simp)
      · simp only [Except.ok.injEq] at hok
        exact mem_indices_bounds _ _ _ _ _ (hok ▸ hx)

theorem mem_sliceUnion_bounds (es : List SubEntry) (length : Int) (is : List Int) (x : Int)
    (hok : sliceUnion es length = .ok is) (hx : x ∈ is) : 0 ≤ x ∧ x < length := by
  induction es generalizing is with
  | nil =>
      simp only [sliceUnion, Except.ok.injEq] at hok
      subst hok
      simp at hx
  | cons e rest ih =>
      simp only [sliceUnion] at hok
      cases h1 : sliceEntry e length with
      | error msg => rw [h1] at hok; exact absurd hok (by simp)
      | ok is1 =>
          rw [h1] at hok
          cases h2 : sliceUnion rest length with
          | error msg => rw [h2] at hok; exact absurd hok (by simp)
          | ok is2 =>
              rw [h2] at hok
              simp only [Except.ok.injEq] at hok
              subst hok
              rcases List.mem_append.mp hx with h | h
              · exact mem_sliceEntry_bounds e length is1 x h1 h
              · exact ih is2 h2 h

/-- C8: every index the slice resolver returns lies in `[0, length)` — range
indices are generated by stepping from `from` toward `to` (exclusive) and
are clipped to `[0, length)` no matter how far out of range the requested
bounds are — and a single integer subscript whose value (after adding
`length` when negative) falls outside `[0, length)` resolves to an empty
result rather than an error. -/
theorem slice_resolver_bounds (sub : Subscript) (length : Int) (is : List Int)
    (x i : Int) (hok : sliceSub sub length = .ok is) (hx : x ∈ is)
    (hout : (if i < 0 then i + length else i) < 0
            ∨ length ≤ (if i < 0 then i + length else i)) :
    (0 ≤ x ∧ x < length) ∧ sliceSub (.union [.single i]) length = .ok [] := by
  constructor
  · cases sub with
    | wildcard =>
        simp only [sliceSub, Except.ok.injEq] at hok
        exact mem_indices_bounds _ _ _ _ _ (hok ▸ hx)
    | union es => exact mem_sliceUnion_bounds es length is x hok hx
  · have hno : ¬ (0 ≤ (if i < 0 then i + length else i)
        ∧ (if i < 0 then i + length else i) < length) := by omega
    simp [sliceSub, sliceUnion, sliceEntry, indices_single, hno]

/-- Closed witness for C8. -/
theorem slice_resolver_bounds_witness :
    ((0:Int) ≤ 0 ∧ (0:Int) < 1) ∧ sliceSub (.union [.single (-5)]) 1 = .ok [] :=
  slice_resolver_bounds (.union [.single 0]) 1 [0] 0 (-5)
    (by
      have h := indices_single 0 1
      norm_num at h
      simp [sliceSub, sliceUnion, sliceEntry, h])
    (by simp)
    (by decide)

/-! ## Definiteness analysis of the parser (path.go `createPath`)

The compile-time string processing is modelled on `List Char` (a Go string
is a byte slice iterated rune-by-rune; the helpers below walk it rune-wise
exactly as path.go does). -/

/-- Go `strings.TrimPrefix`: remove the leading literal when present. -/
def trimHeadL (s lit : List Char) : List Char :=
  if lit.isPrefixOf s then s.drop lit.length else s

/-- Go `strings.TrimSuffix`: remove the trailing literal when present. -/
def trimTailL (s lit : List Char) : List Char :=
  if lit.isSuffixOf s then s.take (s.length - lit.length) else s

/-- Go `strings.TrimSpace`: strip leading and trailing whitespace. -/
def trimSpaceL (s : List Char) : List Char :=
  ((s.dropWhile Char.isWhitespace).reverse.dropWhile Char.isWhitespace).reverse

def splitCommaAux : List Char → List Char → List (List Char)
  | [], acc => [acc.reverse]
  | c :: rest, acc =>
      if c = ',' then acc.reverse :: splitCommaAux rest []
      else splitCommaAux rest (c :: acc)

/-- Go `strings.Split(s, ",")`. -/
def splitComma (s : List Char) : List (List Char) :=
  splitCommaAux s []

def balancedAux (q : Char) : List Char → Bool → Option Char → Bool
  | [], b, _ => b
  | c :: rest, b, prev =>
      if c = q then
        if prev = some '\\' then balancedAux q rest b (some c)
        else balancedAux q rest (!b) (some c)
      else balancedAux q rest b (some c)

/-- Function `balanced` of path.go: whether a string closes every occurrence
of the quote character `q`, treating a backslash-preceded quote as escaped. -/
def balanced (token : List Char) (q : Char) : Bool :=
  balancedAux q token true none

def unescapeAux : List Char → Bool → List Char → List Char
  | [], _, acc => acc
  | c :: rest, escaped, acc =>
      if c = '\\' then
        if escaped then unescapeAux rest false (acc ++ [c])
        else unescapeAux rest true acc
      else unescapeAux rest false (acc ++ [c])

/-- Function `unescape` of path.go: backslash-escapes for the quote and
backslash characters only. -/
def unescape (raw : List Char) : List Char :=
  unescapeAux raw false []

/-- The accumulation loop of `bracketChildNames` (path.go): comma-split
tokens with unbalanced quotes are glued back together so that commas inside
a still-open quoted name stay part of the same name; a trailing unfinished
accumulator is flushed at the end. -/
def bracketChildNamesAccum : List (List Char) → List Char → List (List Char)
  | [], accum => if accum = [] then [] else [accum]
  | token :: rest, accum =>
      if balanced token '\'' && balanced token '"' then
        if accum ≠ [] then bracketChildNamesAccum rest (accum ++ [','] ++ token)
        else token :: bracketChildNamesAccum rest []
      else
        if accum = [] then bracketChildNamesAccum rest token
        else (accum ++ [','] ++ token) :: bracketChildNamesAccum rest []

/-- The per-name cleanup of `bracketChildNames`: trim whitespace, remove one
layer of single or double quotes, process escapes. -/
def unquoteChild (token : List Char) : List Char :=
  let t := trimSpaceL token
  let t := if ['\''].isPrefixOf t then trimTailL (trimHeadL t ['\'']) ['\'']
           else trimTailL (trimHeadL t ['"']) ['"']
  unescape t

/-- Function `bracketChildNames` of path.go: split the bracket body on `,`
(Go `strings.Split`), regroup names with embedded commas, unquote and
unescape each. -/
def bracketChildNames (childNames : List Char) : List (List Char) :=
  (bracketChildNamesAccum (splitComma childNames) []).map unquoteChild

/-- The lexemes `createPath` dispatches on (the lexer itself is an external
collaborator; each constructor carries the raw token text `val`).  The
lexemes collected for a filter body do not reach the `definite` analysis —
`createPath` consumes them into the filter — so the stream is modelled with
filter bodies folded into their `FilterBegin` token. -/
inductive lexeme where
  | lexemeRoot : lexeme
  | lexemeIdentity : lexeme
  | lexemeEOF : lexeme
  | lexemeDotChild : String → lexeme
  | lexemeUndottedChild : String → lexeme
  | lexemeBracketChild : String → lexeme
  | lexemeArraySubscript : String → lexeme
  | lexemeRecursiveDescent : String → lexeme
  | lexemeFilterBegin : lexeme
  | lexemeRecursiveFilterBegin : lexeme
  | lexemePropertyName : String → lexeme
  | lexemeBracketPropertyName : String → lexeme
  | lexemeArraySubscriptPropertyName : String → lexeme
deriving Repr, DecidableEq

/-- Whether processing one lexeme makes `createPath` (or the node
constructor it calls) assign `ctx.definite = false`:
* recursive descent and both filter forms always do (path.go lines 108-109,
  196-197);
* a bracket child or bracket property name does iff its name list has more
  than one member (`bracketChildThen` / `propertyNameBracketChildThen`);
* an array subscript does iff the bracket body is `*` or contains a comma or
  colon (`arraySubscriptThen`, line 818);
* a property-name array subscript does iff its body is `*`
  (`propertyNameArraySubscriptThen`);
* everything else — including the dot-child and undotted-child forms, and in
  particular the dot-wildcard `.*`, which `childThen` routes to
  `allChildrenThen` without ever touching the context — leaves the flag
  alone. -/
def flipsDefinite : lexeme → Bool
  | .lexemeRecursiveDescent _ => true
  | .lexemeFilterBegin => true
  | .lexemeRecursiveFilterBegin => true
  | .lexemeBracketChild val =>
      let names := bracketChildNames
        (trimSpaceL (trimTailL (trimHeadL (trimSpaceL val.toList) ['[']) [']']))
      decide (names.length > 1)
  | .lexemeArraySubscript val =>
      let sub := trimTailL (trimHeadL val.toList ['[']) [']']
      sub = ['*'] || sub.contains ',' || sub.contains ':'
  | .lexemeBracketPropertyName val =>
      let t := trimTailL (trimSpaceL val.toList) ['~']
      let names := bracketChildNames
        (trimSpaceL (trimTailL (trimHeadL t ['[']) [']']))
      decide (names.length > 1)
  | .lexemeArraySubscriptPropertyName val =>
      trimTailL (trimHeadL val.toList ['[']) [']', '~'] = ['*']
  | _ => false

/-- The `definite` flag after `createPath` has consumed the token stream:
the recursion threads the mutable compile context through every token, and
the flag — starting from `d` — is only ever assigned false, exactly when a
token flips it. -/
def createPathDefinite (toks : List lexeme) (d : Bool) : Bool :=
  toks.foldl (fun acc t => acc && !flipsDefinite t) d

theorem createPathDefinite_false (toks : List lexeme) :
    createPathDefinite toks false = false := by
  induction toks with
  | nil => rfl
  | cons t rest ih => simp [createPathDefinite, List.foldl_cons] at ih ⊢; exact ih

/-- Counterexample to C3 as stated: the dot-wildcard child `.*` does NOT
flip `definite` to false — `childThen` forwards `*` to `allChildrenThen`,
which never touches the compile context — so the path `$.*`, which contains
a wildcard, still reports `definite = true`; the bracketed wildcard `[*]`
by contrast does flip the flag. -/
theorem definite_dot_wildcard_counterexample :
    createPathDefinite [.lexemeRoot, .lexemeDotChild ".*"] true = true
    ∧ createPathDefinite [.lexemeRoot, .lexemeArraySubscript "[*]"] true = false := by
  constructor
  · rfl
  · decide

/-- Amended C3: the `definite` flag ends up true iff no consumed token is
flagged by `flipsDefinite` — recursive descent, a filter, a multi-member
bracket name list, an array subscript that is `*` or contains `,` or `:`,
or a property-name subscript `*`.  The dot-wildcard child `.*` (and the
undotted `*`) is NOT among the flipping constructs: `childThen` hands it to
`allChildrenThen`, which never modifies the compile context. -/
theorem definite_iff_no_flipping_construct (toks : List lexeme) :
    (createPathDefinite toks true = true ↔ ∀ t ∈ toks, flipsDefinite t = false)
    ∧ ∀ s, flipsDefinite (.lexemeDotChild s) = false := by
  refine ⟨?_, fun s => rfl⟩
  induction toks with
  | nil => simp [createPathDefinite]
  | cons t rest ih =>
      by_cases h : flipsDefinite t
      · have hfalse : createPathDefinite (t :: rest) true = false := by
          show List.foldl _ (true && !flipsDefinite t) rest = false
          rw [h]
          simpa [createPathDefinite] using createPathDefinite_false rest
        rw [hfalse]
        simp only [Bool.false_eq_true, false_iff]
        intro hall
        exact absurd (hall t (by simp)) (by simp [h])
      · have hsame : createPathDefinite (t :: rest) true = createPathDefinite rest true := by
          show List.foldl _ (true && !flipsDefinite t) rest = _
          have hb : (true && !flipsDefinite t) = true := by simp [h]
          rw [hb]
          rfl
        rw [hsame, ih]
        constructor
        · intro hall u hu
          rcases List.mem_cons.mp hu with rfl | hu2
          · simpa using h
          · exact hall u hu2
        · intro hall u hu
          exact hall u (List.mem_cons_of_mem _ hu)
